import Mathlib

set_option maxHeartbeats 1000000

/-!
Verification development for the typer repository (src/validator.py).

The embedding works on `List Char` / `String` and mirrors the two regular
expressions of `TypeValidator` directly:

* the tokenizer regex
  `[bfr]*(?:"""..."""|'''...'''|"..."|'...')|(?<!\w)(?<!\.)([a-zA-Z_][a-zA-Z0-9_]*)(?!\.)(?!\w)`
  is embedded as a left-to-right scanner (`scanCore`) that at each position
  first tries the literal alternative and then the identifier alternative,
  exactly as Python's scanning with a leading alternation does;
* the substitution regex `(?<!\.)(?<!\w)NAME\b` used by `re.sub` is embedded
  as `subCore`.

Recursive scanners take an explicit fuel argument (always instantiated with
the length of the scanned list, which bounds the number of steps) so that all
definitions are structurally recursive and evaluate by kernel reduction.

Word characters are modelled over ASCII, which is the alphabet of the
identifier class `[a-zA-Z0-9_]` used by the source regexes.
-/

namespace Typer

/-- Word characters of the validator's regexes (ASCII model of `\w`). -/
def isWordC (c : Char) : Bool := c.isAlpha || c.isDigit || c = '_'

/-- Start characters of the identifier class `[a-zA-Z_]`. -/
def isIdentStart (c : Char) : Bool := c.isAlpha || c = '_'

/-- Characters of the literal prefix class `[bfr]`. -/
def isBFR (c : Char) : Bool := c = 'b' || c = 'f' || c = 'r'

/-- Lookbehind shared by both regexes (`(?<!\w)(?<!\.)`): the position is not
preceded by a word character or a dot; `none` is the start of the string. -/
def prevOk : Option Char → Bool
  | none => true
  | some c => !isWordC c && c != '.'

/-- Bool-valued list prefix test. -/
def hasPrefixL : List Char → List Char → Bool
  | [], _ => true
  | _ :: _, [] => false
  | a :: as, b :: bs => a == b && hasPrefixL as bs

/-- Word boundary `\b` after a name that ends in a word character: the next
character is absent or a non-word character. -/
def boundaryB : List Char → Bool
  | [] => true
  | c :: _ => !isWordC c

/-- Match of the substitution pattern `(?<!\.)(?<!\w)NAME\b` at the head of
`l`, with `p` the character preceding `l` in the original string. -/
def headMatchB (name : List Char) (p : Option Char) (l : List Char) : Bool :=
  prevOk p && !name.isEmpty && hasPrefixL name l && boundaryB (l.drop name.length)

/-- One pass of `re.sub` with pattern `(?<!\.)(?<!\w)NAME\b`: scan left to
right, replace each match with `repl` and continue right after the matched
span. `fuel` bounds the number of steps. -/
def subCore (name repl : List Char) : Nat → Option Char → List Char → List Char
  | _, _, [] => []
  | 0, _, l => l
  | f + 1, p, c :: rest =>
    if headMatchB name p (c :: rest) then
      repl ++ subCore name repl f (some (name.getLastD c)) (rest.drop (name.length - 1))
    else
      c :: subCore name repl f (some c) rest

/-- The substitution scan at its canonical fuel. -/
def subRun (name repl : List Char) (p : Option Char) (l : List Char) : List Char :=
  subCore name repl l.length p l

/-- String-level `re.sub(rf"(?<!\.)(?<!\w){name}\b", repl, s)` for an
identifier `name`. -/
def subName (name repl s : String) : String :=
  String.mk (subRun name.data repl.data none s.data)

/-- Existence of a substitution-eligible occurrence of `name` (a position
where `headMatchB` holds) anywhere in the scanned list. -/
def eligCore (name : List Char) : Nat → Option Char → List Char → Bool
  | _, _, [] => false
  | 0, _, _ => false
  | f + 1, p, c :: rest =>
    if headMatchB name p (c :: rest) then true
    else eligCore name f (some c) rest

/-- String-level eligibility test: `s` contains a whole-word occurrence of
`name` that is not preceded by a dot or a word character. -/
def hasEligibleS (name s : String) : Bool :=
  eligCore name.data s.data.length none s.data

/-- Scanner for the close of a triple-quoted literal (`""".*?"""`): find the
earliest closing triple with only non-newline characters before it (the regex
dot does not match the newline). -/
def scanTriple (q : Char) : Nat → List Char → Option (List Char)
  | _, [] => none
  | 0, _ => none
  | f + 1, c :: rest =>
    if c = q ∧ hasPrefixL [q, q] rest then some (rest.drop 2)
    else if c = '\n' then none
    else scanTriple q f rest

/-- Scanner for the close of a one-quote literal (`"(?:[^"\\]|\\.)*"`): plain
characters other than the quote and the backslash (newlines included) are
consumed; a backslash escapes any non-newline character. -/
def scanSingle (q : Char) : Nat → List Char → Option (List Char)
  | _, [] => none
  | 0, _ => none
  | f + 1, c :: rest =>
    if c = q then some rest
    else if c = '\\' then
      match rest with
      | [] => none
      | d :: rest' => if d = '\n' then none else scanSingle q f rest'
    else scanSingle q f rest

/-- The four quoted forms of the literal alternative, tried in the order of
the pattern: triple-double, triple-single, one-double, one-single. A failed
triple form falls through to the one-quote form at the same position. -/
def tryQuote (r : List Char) : Option (List Char) :=
  if hasPrefixL ['"', '"', '"'] r then
    match scanTriple '"' (r.drop 3).length (r.drop 3) with
    | some rem => some rem
    | none => scanSingle '"' (r.drop 1).length (r.drop 1)
  else if hasPrefixL ['\'', '\'', '\''] r then
    match scanTriple '\'' (r.drop 3).length (r.drop 3) with
    | some rem => some rem
    | none => scanSingle '\'' (r.drop 1).length (r.drop 1)
  else
    match r with
    | '"' :: t => scanSingle '"' t.length t
    | '\'' :: t => scanSingle '\'' t.length t
    | _ => none

/-- Alternative 1 of the tokenizer regex at the current position: a greedy
`[bfr]*` run (which only participates when a quoted form starts right after
it) followed by one of the quoted forms. Returns the closing quote character
(the last consumed character) and the remainder. -/
def tryLit (l : List Char) : Option (Char × List Char) :=
  let r := l.dropWhile isBFR
  match r with
  | c :: _ =>
    match tryQuote r with
    | some rem => some (c, rem)
    | none => none
  | [] => none

/-- Embedding of `pattern.findall`: scan left to right; at each position try the literal
alternative first (contributing the empty capture), then the identifier
alternative `(?<!\w)(?<!\.)([a-zA-Z_][a-zA-Z0-9_]*)(?!\.)(?!\w)`; otherwise
advance one character. -/
def scanCore : Nat → Option Char → List Char → List String
  | _, _, [] => []
  | 0, _, _ => []
  | f + 1, p, c :: rest =>
    match tryLit (c :: rest) with
    | some (q, rem) => "" :: scanCore f (some q) rem
    | none =>
      if prevOk p ∧ isIdentStart c then
        if ((c :: rest).dropWhile isWordC).head? = some '.' then
          scanCore f (some c) rest
        else
          String.mk ((c :: rest).takeWhile isWordC) ::
            scanCore f (some (((c :: rest).takeWhile isWordC).getLastD c))
              ((c :: rest).dropWhile isWordC)
      else
        scanCore f (some c) rest

/-- Embedding of `TypeValidator.find_names`: all captures of `pattern.findall`, the empty
string standing for the matches of the literal alternative. -/
def find_names (s : String) : List String :=
  scanCore s.data.length none s.data

/-- Deduplication keeping first occurrences, with an accumulator of seen
elements. -/
def dedupAcc {α : Type} [DecidableEq α] : List α → List α → List α
  | _, [] => []
  | seen, x :: xs => if x ∈ seen then dedupAcc seen xs else x :: dedupAcc (x :: seen) xs

/-- Embedding of `TypeValidator.only`: drop falsy (empty) strings and deduplicate.
Python's `list(set(...))` order is unspecified; it is modelled with
first-occurrence order. -/
def only (l : List String) : List String :=
  dedupAcc [] (l.filter (fun x => x ≠ ""))

/-- The loop of `TypeValidator.seperate_names`: enumerate over the token list
while popping tokens that re-tokenize into several names (`pop(i)` makes the
iterator skip the element that slides into the popped slot, which the
embedding reproduces by advancing the index over the shortened list). -/
def sepCore : Nat → List String → Nat → List String → List String
  | 0, names, _, acc => acc ++ names
  | f + 1, names, k, acc =>
    if h : k < names.length then
      if (find_names (names.get ⟨k, h⟩)).length > 1 then
        sepCore f (names.eraseIdx k) (k + 1) (acc ++ find_names (names.get ⟨k, h⟩))
      else
        sepCore f names (k + 1) acc
    else acc ++ names

/-- Embedding of `TypeValidator.seperate_names`. -/
def seperate_names (s : String) : List String :=
  only (sepCore ((find_names s).length + 1) (find_names s) 0 [])

/-- The fixed allow-list `BUILTIN_NAMESPACES`. -/
def BUILTIN_NAMESPACES : List String := ["builtins", "typing", "typing_extensions"]

/-- The replacement text `entity_repr`: `origin.name` for a non-empty origin,
the bare name otherwise. -/
def mkRepl (origin n : String) : String :=
  if origin = "" then n else origin ++ "." ++ n

/-- List-level form of `mkRepl`. -/
def mkReplL (origin n : List Char) : List Char :=
  if origin = [] then n else origin ++ '.' :: n

/-- Shape of the remainder after a word run: empty or starting with a
non-word character. -/
def nwShape (l : List Char) : Prop :=
  l = [] ∨ ∃ c t', l = c :: t' ∧ isWordC c = false

/-- Modelled from the spec: the namespace resolver (`safelib.Import` /
`get_entity` / `valid` / `get_entity_info`), an external collaborator whose
code is not part of this repository. Following the resolver contract of the
spec, a single lookup returns `none` for a name absent from every
allow-listed namespace and `some origin` (with `origin` possibly empty) for a
resolvable name; the two safelib lookups of the source are modelled as
coherent. `resolveStd` is a concrete table over the standard vocabulary of
the three allow-listed namespaces. -/
def resolveTable : List (String × String) :=
  [("int", "builtins"), ("str", "builtins"), ("float", "builtins"),
   ("bool", "builtins"), ("bytes", "builtins"), ("list", "builtins"),
   ("dict", "builtins"), ("tuple", "builtins"),
   ("Union", "typing"), ("Optional", "typing"), ("Callable", "typing"),
   ("Any", "typing"), ("List", "typing"), ("Dict", "typing"),
   ("TypedDict", "typing_extensions"), ("Self", "typing_extensions")]

/-- Modelled from the spec: lookup into the resolver table (see
`resolveTable`). -/
def resolveStd (n : String) : Option String :=
  (resolveTable.find? (fun p => p.1 = n)).map (fun p => p.2)

/-- The mutable state of the `validate_names` loop. -/
structure RewriteState where
  validated : String
  type_map : List (String × String)
  invalid : List String
deriving DecidableEq

/-- One iteration of the `validate_names` loop over a candidate name: the
dead guard over `BUILTIN_NAMESPACES`, the invalid-name insertion at the front
(`insert(0, ...)`), the `type_map` entry and the `re.sub` rewrite. A name
with no entity info (`none`) is skipped after being recorded invalid. -/
def stepName (R : String → Option String) (st : RewriteState) (n : String) : RewriteState :=
  if n.data.contains '.' ∧ n ∈ BUILTIN_NAMESPACES then st
  else
    match R n with
    | none => { st with invalid := n :: st.invalid }
    | some o =>
      { validated := subName n (mkRepl o n) st.validated,
        type_map := st.type_map ++ [(n, o)],
        invalid := st.invalid }

/-- The rewriting stage of `validate_names`: fold the loop over the candidate
names, starting from the raw annotation string. -/
def rewriteStage (R : String → Option String) (s : String) : RewriteState :=
  (seperate_names s).foldl (stepName R) ⟨s, [], []⟩

/-- The effect of one candidate name on the working string alone (the
`validated_type` component of `stepName`). -/
def applyStep (R : String → Option String) (s : String) (n : String) : String :=
  if n.data.contains '.' ∧ n ∈ BUILTIN_NAMESPACES then s
  else
    match R n with
    | none => s
    | some o => subName n (mkRepl o n) s

mutual

/-- Modelled from the spec: the runtime type values produced by the
restricted evaluator (§4.5). Python's `eval` and the namespace module
objects are host-language machinery not present in src/, so type values are
modelled as a small inductive datatype (argument tuples as `PyList`). -/
inductive PyVal where
  | ns (n : String)
  | tyName (n : String)
  | specialForm (n : String)
  | unionT (args : PyList)
  | callableT (params : PyList) (ret : PyVal)
  | genericT (n : String) (args : PyList)
  | listV (xs : PyList)
  | strV (s : String)
  | funcV (n : String)
deriving DecidableEq

/-- A sequence of evaluated values. -/
inductive PyList where
  | nil
  | cons (hd : PyVal) (tl : PyList)
deriving DecidableEq

end

/-- Convert a list of values into a `PyList`. -/
def PyList.ofL : List PyVal → PyList
  | [] => .nil
  | x :: xs => .cons x (PyList.ofL xs)

/-- Modelled from the spec: the attribute table of the `builtins` module
object (also the table of names the interpreter makes ambiently available
through the implicitly inserted `__builtins__`). -/
def builtinsAttr : String → Option PyVal
  | "int" => some (.tyName "int")
  | "str" => some (.tyName "str")
  | "float" => some (.tyName "float")
  | "bool" => some (.tyName "bool")
  | "bytes" => some (.tyName "bytes")
  | "list" => some (.tyName "list")
  | "dict" => some (.tyName "dict")
  | "tuple" => some (.tyName "tuple")
  | "id" => some (.funcV "id")
  | "open" => some (.funcV "open")
  | "abs" => some (.funcV "abs")
  | "getattr" => some (.funcV "getattr")
  | "__import__" => some (.funcV "__import__")
  | _ => none

/-- Modelled from the spec: the attribute table of the `typing` module
object. -/
def typingAttr : String → Option PyVal
  | "Union" => some (.specialForm "Union")
  | "Optional" => some (.specialForm "Optional")
  | "Callable" => some (.specialForm "Callable")
  | "Any" => some (.specialForm "Any")
  | "List" => some (.specialForm "List")
  | "Dict" => some (.specialForm "Dict")
  | _ => none

/-- Modelled from the spec: the attribute table of the `typing_extensions`
module object. -/
def typextAttr : String → Option PyVal
  | "TypedDict" => some (.specialForm "TypedDict")
  | "Self" => some (.specialForm "Self")
  | _ => none

/-- Attribute access on an evaluated value. -/
def attrOf : PyVal → String → Option PyVal
  | .ns "builtins", a => builtinsAttr a
  | .ns "typing", a => typingAttr a
  | .ns "typing_extensions", a => typextAttr a
  | .funcV f, "__doc__" => some (.strV f)
  | _, _ => none

/-- Subscription (`base[args]`) on an evaluated value: `Union` collapses
duplicates and a singleton, `Callable` requires a parameter list and a
return type, plain generics take their argument lists, and anything else
(such as subscripting a concrete builtin type) fails. -/
def subscOf : PyVal → List PyVal → Option PyVal
  | .specialForm "Union", args =>
    match dedupAcc [] args with
    | [a] => some a
    | as => some (.unionT (PyList.ofL as))
  | .specialForm "Optional", [t] => some (.unionT (PyList.ofL [t, .tyName "NoneType"]))
  | .specialForm "Callable", [.listV ps, ret] => some (.callableT ps ret)
  | .specialForm "List", [t] => some (.genericT "list" (PyList.ofL [t]))
  | .specialForm "Dict", [k, v] => some (.genericT "dict" (PyList.ofL [k, v]))
  | _, _ => none

/-- Skip spaces. -/
def skipWS (l : List Char) : List Char := l.dropWhile (fun c => c = ' ')

/-- Parse a leading identifier. -/
def parseIdentL : List Char → Option (String × List Char)
  | [] => none
  | c :: rest =>
    if isIdentStart c then
      some (String.mk ((c :: rest).takeWhile isWordC), (c :: rest).dropWhile isWordC)
    else none

mutual

/-- Modelled from the spec: evaluation of an expression of the qualified
annotation grammar (dotted names, subscripts, list displays) against a name
environment, mirroring how Python `eval` interprets the rewritten string. -/
def evalExprF (env : String → Option PyVal) : Nat → List Char → Option (PyVal × List Char)
  | 0, _ => none
  | f + 1, l =>
    match parseIdentL (skipWS l) with
    | none => none
    | some (n, rest) =>
      match env n with
      | none => none
      | some v => trailF env f v rest

/-- Trailers: attribute accesses and subscripts after a primary. -/
def trailF (env : String → Option PyVal) : Nat → PyVal → List Char → Option (PyVal × List Char)
  | 0, _, _ => none
  | f + 1, v, l =>
    match skipWS l with
    | '.' :: r =>
      match parseIdentL (skipWS r) with
      | none => none
      | some (a, rest) =>
        match attrOf v a with
        | none => none
        | some v' => trailF env f v' rest
    | '[' :: r =>
      match evalArgsF env f r with
      | none => none
      | some (args, r2) =>
        match skipWS r2 with
        | ']' :: r3 =>
          match subscOf v args with
          | none => none
          | some v' => trailF env f v' r3
        | _ => none
    | _ => some (v, l)

/-- A comma-separated non-empty argument list (a trailing comma before the
closing bracket is allowed, as in Python subscripts). -/
def evalArgsF (env : String → Option PyVal) : Nat → List Char → Option (List PyVal × List Char)
  | 0, _ => none
  | f + 1, l =>
    match evalItemF env f l with
    | none => none
    | some (x, r) =>
      match skipWS r with
      | ',' :: r2 =>
        match skipWS r2 with
        | ']' :: _ => some ([x], skipWS r2)
        | _ =>
          match evalArgsF env f r2 with
          | none => none
          | some (xs, r3) => some (x :: xs, r3)
      | _ => some ([x], r)

/-- An argument: a list display or an expression. -/
def evalItemF (env : String → Option PyVal) : Nat → List Char → Option (PyVal × List Char)
  | 0, _ => none
  | f + 1, l =>
    match skipWS l with
    | '[' :: r =>
      match skipWS r with
      | ']' :: r2 => some (.listV .nil, r2)
      | _ =>
        match evalArgsF env f r with
        | none => none
        | some (xs, r2) =>
          match skipWS r2 with
          | ']' :: r3 => some (.listV (PyList.ofL xs), r3)
          | _ => none
    | _ => evalExprF env f l

end

/-- Modelled from the spec: top-level evaluation of a full string as an
expression, failing (like a captured exception) when parsing, name lookup,
attribute access or subscription fails or input remains. -/
def evalWith (env : String → Option PyVal) (s : String) : Option PyVal :=
  match evalExprF env (4 * (s.data.length + 1)) s.data with
  | some (v, r) => if skipWS r = [] then some v else none
  | none => none

/-- Modelled from the spec: the name environment of the actual `eval` call.
The globals dictionary binds the three allow-listed module objects, and —
per the documented behavior of Python's `eval` — the interpreter inserts
`__builtins__` into a globals dictionary that lacks that key, so every other
bare name falls through to the builtins module. -/
def envPython (n : String) : Option PyVal :=
  if n ∈ BUILTIN_NAMESPACES then some (.ns n) else builtinsAttr n

/-- The evaluation environment in the spec's words: only the three
allow-listed namespace objects are bound, nothing else resolves. -/
def envRestricted (n : String) : Option PyVal :=
  if n ∈ BUILTIN_NAMESPACES then some (.ns n) else none

/-- Embedding of `ValidationResult` (the pydantic model); the `errors` list of caught
exceptions is modelled as a list of messages. -/
structure ValidationResult where
  validated_type : String
  errors : List String
  pytype : Option PyVal
  invalid_names : List String
  type_map : List (String × String)
deriving DecidableEq

/-- Embedding of `ValidationResult.__bool__` and `is_valid`: no invalid names and a present
`pytype`. -/
def ValidationResult.is_valid (r : ValidationResult) : Bool :=
  r.invalid_names.isEmpty && r.pytype.isSome

/-- Embedding of `ValidationResult.get_origin`. -/
def ValidationResult.get_origin (r : ValidationResult) (n : String) : Option String :=
  (r.type_map.find? (fun p => p.1 = n)).map (fun p => p.2)

/-- Embedding of `TypeValidator.validate_names`: run the rewriting stage, then — only when
no invalid name was found — evaluate the rewritten string, capturing an
evaluation failure into the error list. -/
def validateNames (R : String → Option String) (s : String) : ValidationResult :=
  if (rewriteStage R s).invalid = [] then
    match evalWith envPython (rewriteStage R s).validated with
    | some v =>
      ⟨(rewriteStage R s).validated, [], some v, [], (rewriteStage R s).type_map⟩
    | none =>
      ⟨(rewriteStage R s).validated, ["evaluation failed"], none, [],
        (rewriteStage R s).type_map⟩
  else
    ⟨(rewriteStage R s).validated, [], none, (rewriteStage R s).invalid,
      (rewriteStage R s).type_map⟩

/-- The structured API end to end: `TypeValidator(s).validate_names()`. The
constructor asserts that the input string is truthy, so the empty string
raises (`none`); otherwise the validation result is returned. -/
def validateTop (R : String → Option String) (s : String) : Option ValidationResult :=
  if s = "" then none else some (validateNames R s)

/-- Identifier-shaped token: non-empty and made of word characters. -/
def identTok (s : String) : Bool :=
  !s.data.isEmpty && s.data.all isWordC

/-! ## Basic facts about the result structure -/

theorem validateNames_validated (R : String → Option String) (s : String) :
    (validateNames R s).validated_type = (rewriteStage R s).validated := by
  unfold validateNames
  by_cases h : (rewriteStage R s).invalid = []
  · rw [if_pos h]
    cases evalWith envPython (rewriteStage R s).validated <;> rfl
  · rw [if_neg h]

theorem validateNames_type_map (R : String → Option String) (s : String) :
    (validateNames R s).type_map = (rewriteStage R s).type_map := by
  unfold validateNames
  by_cases h : (rewriteStage R s).invalid = []
  · rw [if_pos h]
    cases evalWith envPython (rewriteStage R s).validated <;> rfl
  · rw [if_neg h]

theorem validateNames_invalid (R : String → Option String) (s : String) :
    (validateNames R s).invalid_names = (rewriteStage R s).invalid := by
  unfold validateNames
  by_cases h : (rewriteStage R s).invalid = []
  · rw [if_pos h]
    cases evalWith envPython (rewriteStage R s).validated <;> simp [h]
  · rw [if_neg h]

/-- C10: for every input annotation, the errors list of the returned
`ValidationResult` has at most one element, and it is empty whenever
`invalid_names` is non-empty. -/
theorem c10_errors_at_most_one (R : String → Option String) (s : String) :
    (validateNames R s).errors.length ≤ 1 ∧
      ((validateNames R s).invalid_names = [] ∨ (validateNames R s).errors = []) := by
  unfold validateNames
  by_cases h : (rewriteStage R s).invalid = []
  · rw [if_pos h]
    cases evalWith envPython (rewriteStage R s).validated <;> simp
  · rw [if_neg h]
    simp

/-- C3: `pytype` is present iff `invalid_names` is empty and evaluation of
the rewritten string succeeded, and `is_valid` (the result's boolean value)
holds iff `invalid_names` is empty and `pytype` is present. -/
theorem c3_pytype_iff_eval (R : String → Option String) (s : String) :
    ((validateNames R s).pytype.isSome = true ↔
      ((validateNames R s).invalid_names = [] ∧
        (evalWith envPython (validateNames R s).validated_type).isSome = true)) ∧
      ((validateNames R s).is_valid = true ↔
        ((validateNames R s).invalid_names = [] ∧
          (validateNames R s).pytype.isSome = true)) := by
  rw [validateNames_validated]
  unfold validateNames
  by_cases h : (rewriteStage R s).invalid = []
  · rw [if_pos h]
    cases evalWith envPython (rewriteStage R s).validated <;>
      simp [ValidationResult.is_valid]
  · rw [if_neg h]
    simp [ValidationResult.is_valid, h]

/-- C5: when every candidate name resolves but the rewritten string fails to
evaluate, the failure is captured in the errors list (not raised), `pytype`
is absent, and `validated_type` and `type_map` keep the values produced by
the rewriting stage. -/
theorem c5_eval_failure_captured (R : String → Option String) (s : String)
    (hinv : (validateNames R s).invalid_names = [])
    (heval : evalWith envPython (rewriteStage R s).validated = none) :
    (validateNames R s).errors = ["evaluation failed"] ∧
      (validateNames R s).pytype = none ∧
      (validateNames R s).validated_type = (rewriteStage R s).validated ∧
      (validateNames R s).type_map = (rewriteStage R s).type_map := by
  rw [validateNames_invalid] at hinv
  refine ⟨?_, ?_, validateNames_validated R s, validateNames_type_map R s⟩ <;>
    unfold validateNames <;> simp [hinv, heval]

/-- Witness for C5 at the annotation `Union[`, whose only candidate name
resolves while the rewritten string `typing.Union[` fails to evaluate. -/
theorem c5_witness :
    (validateNames resolveStd "Union[").invalid_names = [] ∧
      evalWith envPython (rewriteStage resolveStd "Union[").validated = none ∧
      (validateNames resolveStd "Union[").errors = ["evaluation failed"] ∧
      (validateNames resolveStd "Union[").pytype = none := by
  have h := c5_eval_failure_captured resolveStd "Union[" (by decide) (by decide)
  exact ⟨by decide, by decide, h.1, h.2.1⟩

/-- C9 counterexample: the structured API raises on the empty annotation
string (the constructor's assertion fails), so it does not return a result
for every input string. -/
theorem c9_counterexample : validateTop resolveStd "" = none := rfl

/-- C9 amended: for every non-empty annotation string, constructing the
validator and running `validate_names` returns a fully populated result
instead of raising. -/
theorem c9_amended (R : String → Option String) (s : String) (h : s ≠ "") :
    validateTop R s = some (validateNames R s) := by
  simp [validateTop, h]

/-- Witness for C9 amended at the annotation `int`. -/
theorem c9_witness :
    "int" ≠ "" ∧ validateTop resolveStd "int" = some (validateNames resolveStd "int") :=
  ⟨by decide, c9_amended resolveStd "int" (by decide)⟩

/-- C1: validating `Union[Callable[[], int], int]` is valid, rewrites to the
fully qualified `typing.Union[typing.Callable[[], builtins.int],
builtins.int]`, and evaluates to the corresponding concrete Union type. -/
theorem c1_union_callable_example :
    (validateNames resolveStd "Union[Callable[[], int], int]").is_valid = true ∧
      (validateNames resolveStd "Union[Callable[[], int], int]").invalid_names = [] ∧
      (validateNames resolveStd "Union[Callable[[], int], int]").validated_type =
        "typing.Union[typing.Callable[[], builtins.int], builtins.int]" ∧
      (validateNames resolveStd "Union[Callable[[], int], int]").pytype =
        some (.unionT (PyList.ofL [.callableT .nil (.tyName "int"), .tyName "int"])) := by
  decide

/-- C2: the evaluation environment of the actual code is not restricted to
the three allow-listed namespace bindings. The annotation `id.__doc__`
produces no candidate names, is evaluated unchanged, and reaches the ambient
builtin `id` through the `__builtins__` entry Python inserts into the
globals dictionary — the result is even reported valid — while evaluation
under the environment the spec describes (only the three namespace objects
bound) fails. -/
theorem c2_ambient_builtins_reachable :
    (validateNames resolveStd "id.__doc__").is_valid = true ∧
      (validateNames resolveStd "id.__doc__").pytype = some (.strV "id") ∧
      evalWith envRestricted "id.__doc__" = none := by
  decide

/-- C6 counterexample: the substitution pattern `(?<!\.)(?<!\w)NAME\b` has no
lookahead for a following dot, so the `int` of `int.real` is rewritten: the
claim's prediction `int.real, builtins.int` differs from the actual
rewriting. -/
theorem c6_counterexample :
    (validateNames resolveStd "int.real, int").validated_type =
        "builtins.int.real, builtins.int" ∧
      ("builtins.int.real, builtins.int" : String) ≠ "int.real, builtins.int" := by
  decide

/-! ## Completeness of invalid-name reporting (C4) -/

theorem guard_false (m : String) : ¬(m.data.contains '.' ∧ m ∈ BUILTIN_NAMESPACES) := by
  rintro ⟨hdot, hmem⟩
  simp only [BUILTIN_NAMESPACES, List.mem_cons, List.mem_singleton,
    List.not_mem_nil, or_false] at hmem
  rcases hmem with h | h | h <;> subst h <;> revert hdot <;> decide

theorem stepName_invalid_sub (R : String → Option String) (st : RewriteState)
    (m n : String) (h : n ∈ st.invalid) : n ∈ (stepName R st m).invalid := by
  unfold stepName
  by_cases hg : m.data.contains '.' ∧ m ∈ BUILTIN_NAMESPACES
  · rw [if_pos hg]; exact h
  · rw [if_neg hg]
    cases R m <;> simp [h]

theorem foldl_invalid_mem (R : String → Option String) :
    ∀ (ns : List String) (st : RewriteState) (n : String),
      n ∈ st.invalid ∨ (n ∈ ns ∧ R n = none) →
      n ∈ (ns.foldl (stepName R) st).invalid := by
  intro ns
  induction ns with
  | nil =>
    intro st n h
    rcases h with h | ⟨h, _⟩
    · exact h
    · exact absurd h (List.not_mem_nil n)
  | cons m ns ih =>
    intro st n h
    rw [List.foldl_cons]
    apply ih
    rcases h with h | ⟨hmem, hfail⟩
    · exact Or.inl (stepName_invalid_sub R st m n h)
    · rcases List.mem_cons.1 hmem with rfl | hmem'
      · refine Or.inl ?_
        unfold stepName
        rw [if_neg (guard_false n), hfail]
        exact List.mem_cons_self n st.invalid
      · exact Or.inr ⟨hmem', hfail⟩

/-- C4: every candidate name that fails namespace resolution appears in the
result's `invalid_names`; resolution is not short-circuited on the first
failure. -/
theorem c4_invalid_names_complete (R : String → Option String) (s n : String)
    (hmem : n ∈ seperate_names s) (hfail : R n = none) :
    n ∈ (validateNames R s).invalid_names := by
  rw [validateNames_invalid]
  exact foldl_invalid_mem R (seperate_names s) ⟨s, [], []⟩ n (Or.inr ⟨hmem, hfail⟩)

/-- Witness for C4: the annotation `Foo[Bar]` contains two unrelated
unresolvable names and both are reported. -/
theorem c4_witness :
    "Foo" ∈ (validateNames resolveStd "Foo[Bar]").invalid_names ∧
      "Bar" ∈ (validateNames resolveStd "Foo[Bar]").invalid_names :=
  ⟨c4_invalid_names_complete resolveStd "Foo[Bar]" "Foo" (by decide) (by decide),
    c4_invalid_names_complete resolveStd "Foo[Bar]" "Bar" (by decide) (by decide)⟩

/-! ## Boundary safety of the rewriter (C6) -/

theorem elig_sub_id (name repl : List Char) :
    ∀ (f : Nat) (p : Option Char) (l : List Char), l.length ≤ f →
      eligCore name f p l = false → subCore name repl f p l = l := by
  intro f
  induction f with
  | zero =>
    intro p l hl _
    cases l with
    | nil => rfl
    | cons c rest => exact absurd hl (by simp)
  | succ f ih =>
    intro p l hl he
    cases l with
    | nil => rfl
    | cons c rest =>
      unfold eligCore at he
      unfold subCore
      by_cases hm : headMatchB name p (c :: rest) = true
      · rw [if_pos hm] at he
        exact absurd he (by simp)
      · rw [if_neg hm] at he ⊢
        have : rest.length ≤ f := by simpa using Nat.le_of_succ_le_succ hl
        rw [ih (some c) rest this he]

/-- C6 amended: the substitution is boundary-safe except for a following
dot: an occurrence is rewritten exactly when it is a whole-word occurrence
not preceded by a dot or a word character (a following dot does not protect
it). In particular, when a string has no such eligible occurrence — every
occurrence lies inside a larger identifier, as in `PrintHandler`, or is
preceded by a dot — the substitution leaves the string unchanged. -/
theorem c6_amended (n o s : String) (h : hasEligibleS n s = false) :
    subName n (mkRepl o n) s = s := by
  unfold subName subRun
  rw [elig_sub_id n.data (mkRepl o n).data s.data.length none s.data (Nat.le_refl _) h]

/-- Witness for C6 amended: qualifying `int` never alters `PrintHandler`. -/
theorem c6_witness :
    hasEligibleS "int" "PrintHandler" = false ∧
      subName "int" (mkRepl "builtins" "int") "PrintHandler" = "PrintHandler" :=
  ⟨by decide, c6_amended "int" "builtins" "PrintHandler" (by decide)⟩

/-- C8: the tokenizer's triple-quoted alternatives use a dot that does not
match the newline, so a triple-quoted literal containing both an inner quote
and a newline is not skipped: `\"\"\"a\"b\nc\"\"\"` yields the candidate
names `b` and `c` from inside the literal, which are then reported
invalid. -/
theorem c8_triple_quoted_newline :
    seperate_names "\"\"\"a\"b\nc\"\"\"" = ["b", "c"] ∧
      (validateNames resolveStd "\"\"\"a\"b\nc\"\"\"").invalid_names = ["c", "b"] := by
  decide

/-! ## The substitution scan: basic equations -/

theorem subCore_fuel (name repl : List Char) :
    ∀ (f g : Nat) (p : Option Char) (l : List Char), l.length ≤ f → l.length ≤ g →
      subCore name repl f p l = subCore name repl g p l := by
  intro f
  induction f with
  | zero =>
    intro g p l hf _
    have : l = [] := List.eq_nil_of_length_eq_zero (Nat.le_zero.1 hf)
    subst this
    cases g <;> rfl
  | succ f ih =>
    intro g p l hf hg
    cases l with
    | nil => cases g <;> rfl
    | cons c rest =>
      cases g with
      | zero => exact absurd hg (by simp)
      | succ g =>
        unfold subCore
        by_cases hm : headMatchB name p (c :: rest) = true
        · rw [if_pos hm, if_pos hm]
          have hlen : (rest.drop (name.length - 1)).length ≤ f := by
            have h1 : rest.length ≤ f := by simpa using Nat.le_of_succ_le_succ hf
            have := List.length_drop (name.length - 1) rest
            omega
          have hlen' : (rest.drop (name.length - 1)).length ≤ g := by
            have h1 : rest.length ≤ g := by simpa using Nat.le_of_succ_le_succ hg
            have := List.length_drop (name.length - 1) rest
            omega
          rw [ih g _ _ hlen hlen']
        · rw [if_neg hm, if_neg hm]
          have h1 : rest.length ≤ f := by simpa using Nat.le_of_succ_le_succ hf
          have h2 : rest.length ≤ g := by simpa using Nat.le_of_succ_le_succ hg
          rw [ih g _ _ h1 h2]

theorem subRun_cons_pos (name repl : List Char) (p : Option Char) (c : Char)
    (rest : List Char) (hm : headMatchB name p (c :: rest) = true) :
    subRun name repl p (c :: rest) =
      repl ++ subRun name repl (some (name.getLastD c)) (rest.drop (name.length - 1)) := by
  show subCore name repl (c :: rest).length p (c :: rest) = _
  have : (c :: rest).length = rest.length + 1 := rfl
  rw [this]
  unfold subCore
  rw [if_pos hm]
  unfold subRun
  rw [subCore_fuel name repl rest.length (rest.drop (name.length - 1)).length _ _
    (by have := List.length_drop (name.length - 1) rest; omega) (Nat.le_refl _)]

theorem subRun_cons_neg (name repl : List Char) (p : Option Char) (c : Char)
    (rest : List Char) (hm : ¬headMatchB name p (c :: rest) = true) :
    subRun name repl p (c :: rest) = c :: subRun name repl (some c) rest := by
  show subCore name repl (c :: rest).length p (c :: rest) = _
  have : (c :: rest).length = rest.length + 1 := rfl
  rw [this]
  unfold subCore
  rw [if_neg hm]
  rfl

/-! ## Characterizing eligible matches of identifier tokens -/

theorem identStart_word {c : Char} (h : isIdentStart c = true) : isWordC c = true := by
  unfold isIdentStart at h
  unfold isWordC
  rcases Bool.or_eq_true_iff.1 h with h | h <;> simp [h]

theorem headMatch_prevFail (name : List Char) (p : Option Char) (l : List Char)
    (hp : prevOk p = false) : headMatchB name p l = false := by
  unfold headMatchB
  rw [hp]
  rfl

theorem tokenRun_iff (n : List Char) (hw : ∀ c ∈ n, isWordC c = true) :
    ∀ l : List Char, n ≠ [] →
      ((hasPrefixL n l = true ∧ boundaryB (l.drop n.length) = true) ↔
        n = l.takeWhile isWordC) := by
  induction n with
  | nil => intro l hne; exact absurd rfl hne
  | cons a n' ih =>
    intro l _
    have haw : isWordC a = true := hw a (List.mem_cons_self a n')
    cases l with
    | nil =>
      constructor
      · rintro ⟨h, _⟩
        exact absurd h (by simp [hasPrefixL])
      · intro h
        exact absurd h.symm (by simp [List.takeWhile])
    | cons b l₂ =>
      by_cases hab : a = b
      · subst hab
        have htw : (a :: l₂).takeWhile isWordC = a :: l₂.takeWhile isWordC := by
          simp [List.takeWhile, haw]
        rw [htw]
        by_cases hemp : n' = []
        · subst hemp
          constructor
          · rintro ⟨-, hb⟩
            have hb' : boundaryB l₂ = true := hb
            cases l₂ with
            | nil => rfl
            | cons d l₃ =>
              have hd : isWordC d = false := by
                cases hdw : isWordC d
                · rfl
                · exact absurd hb' (by simp [boundaryB, hdw])
              simp [List.takeWhile, hd]
          · intro h
            refine ⟨by simp [hasPrefixL], ?_⟩
            have htl : List.takeWhile isWordC l₂ = [] := by
              have := congrArg List.tail h
              simpa using this.symm
            show boundaryB (List.drop 1 (a :: l₂)) = true
            cases l₂ with
            | nil => rfl
            | cons d l₃ =>
              show boundaryB (d :: l₃) = true
              unfold boundaryB
              by_cases hd : isWordC d = true
              · rw [List.takeWhile_cons, if_pos hd] at htl
                exact absurd htl (by simp)
              · simp only [Bool.not_eq_true] at hd
                simp [hd]
        · have hw' : ∀ c ∈ n', isWordC c = true := fun c hc =>
            hw c (List.mem_cons_of_mem a hc)
          have hiff := ih hw' l₂ hemp
          constructor
          · rintro ⟨hpre, hb⟩
            unfold hasPrefixL at hpre
            have hpre' : hasPrefixL n' l₂ = true := by
              rcases Bool.and_eq_true_iff.1 hpre with ⟨-, h2⟩
              exact h2
            have hb' : boundaryB (l₂.drop n'.length) = true := hb
            have := hiff.1 ⟨hpre', hb'⟩
            rw [← this]
          · intro h
            have h2 : n' = l₂.takeWhile isWordC := by
              have := congrArg List.tail h
              simpa using this
            have := hiff.2 h2
            refine ⟨?_, ?_⟩
            · unfold hasPrefixL
              simp [this.1]
            · exact this.2
      · constructor
        · rintro ⟨hpre, -⟩
          unfold hasPrefixL at hpre
          rcases Bool.and_eq_true_iff.1 hpre with ⟨h1, -⟩
          exact absurd (by simpa using h1) hab
        · intro h
          by_cases hbw : isWordC b = true
          · rw [List.takeWhile_cons, if_pos hbw] at h
            have : a = b := by
              have := congrArg List.head? h
              simpa using this
            exact absurd this hab
          · rw [List.takeWhile_cons, if_neg hbw] at h
            exact absurd h (by simp)

theorem headMatch_iff (n : List Char) (hne : n ≠ []) (hw : ∀ c ∈ n, isWordC c = true)
    (p : Option Char) (l : List Char) :
    headMatchB n p l = true ↔ (prevOk p = true ∧ n = l.takeWhile isWordC) := by
  unfold headMatchB
  constructor
  · intro h
    have h' := h
    simp only [Bool.and_eq_true] at h'
    obtain ⟨⟨⟨hp, -⟩, hpre⟩, hb⟩ := h'
    exact ⟨hp, (tokenRun_iff n hw l hne).1 ⟨hpre, hb⟩⟩
  · rintro ⟨hp, htw⟩
    have := (tokenRun_iff n hw l hne).2 htw
    simp only [Bool.and_eq_true]
    refine ⟨⟨⟨hp, ?_⟩, this.1⟩, this.2⟩
    simp [List.isEmpty_eq_true, hne]

/-! ## Word runs and the substitution scan -/

theorem getLastD_irrel (l : List Char) (hne : l ≠ []) (d₁ d₂ : Char) :
    l.getLastD d₁ = l.getLastD d₂ := by
  cases l with
  | nil => exact absurd rfl hne
  | cons a l' => rw [List.getLastD_cons, List.getLastD_cons]

theorem length_dropWhile_le (q : Char → Bool) :
    ∀ l : List Char, (l.dropWhile q).length ≤ l.length := by
  intro l
  induction l with
  | nil => exact Nat.le_refl 0
  | cons a l' ih =>
    rw [List.dropWhile_cons]
    by_cases ha : q a = true
    · rw [if_pos ha]
      exact Nat.le_succ_of_le ih
    · rw [if_neg ha]

theorem dropWhile_shape (q : Char → Bool) (l : List Char) :
    l.dropWhile q = [] ∨ ∃ c t', l.dropWhile q = c :: t' ∧ q c = false := by
  induction l with
  | nil => exact Or.inl rfl
  | cons a l' ih =>
    rw [List.dropWhile_cons]
    by_cases ha : q a = true
    · rw [if_pos ha]; exact ih
    · rw [if_neg ha]
      exact Or.inr ⟨a, l', rfl, by simpa using ha⟩

theorem takeWhile_app (q : Char → Bool) :
    ∀ (w t : List Char), (∀ c ∈ w, q c = true) →
      (t = [] ∨ ∃ c t', t = c :: t' ∧ q c = false) →
      (w ++ t).takeWhile q = w := by
  intro w
  induction w with
  | nil =>
    intro t _ ht
    rcases ht with rfl | ⟨c, t', rfl, hc⟩
    · rfl
    · simp [List.takeWhile_cons, hc]
  | cons a w' ih =>
    intro t hw ht
    have ha : q a = true := hw a (List.mem_cons_self a w')
    simp only [List.cons_append, List.takeWhile_cons, if_pos ha]
    rw [ih t (fun c hc => hw c (List.mem_cons_of_mem a hc)) ht]

theorem headMatch_run (n : List Char) (hne : n ≠ []) (hw : ∀ c ∈ n, isWordC c = true)
    (p : Option Char) (w t : List Char) (hww : ∀ c ∈ w, isWordC c = true)
    (ht : nwShape t) :
    headMatchB n p (w ++ t) = true ↔ (prevOk p = true ∧ n = w) := by
  rw [headMatch_iff n hne hw p (w ++ t), takeWhile_app isWordC w t hww ht]

theorem headMatch_run_ne (n : List Char) (hne : n ≠ [])
    (hw : ∀ c ∈ n, isWordC c = true) (p : Option Char) (w t : List Char)
    (hww : ∀ c ∈ w, isWordC c = true) (ht : nwShape t)
    (h2 : ¬(prevOk p = true ∧ n = w)) : headMatchB n p (w ++ t) = false := by
  cases h : headMatchB n p (w ++ t)
  · rfl
  · exact absurd ((headMatch_run n hne hw p w t hww ht).1 h) h2

theorem headMatch_nonword_head (n : List Char) (hne : n ≠ [])
    (hw : ∀ c ∈ n, isWordC c = true) (p : Option Char) (c : Char) (t : List Char)
    (hc : isWordC c = false) : headMatchB n p (c :: t) = false := by
  by_cases h : headMatchB n p (c :: t) = true
  · have := (headMatch_iff n hne hw p (c :: t)).1 h
    rw [List.takeWhile_cons, if_neg (by simp [hc])] at this
    exact absurd this.2 hne
  · simpa using h

theorem subRun_keeps_shape (n r : List Char) (hne : n ≠ [])
    (hw : ∀ c ∈ n, isWordC c = true) (q : Option Char) (t : List Char)
    (ht : nwShape t) : nwShape (subRun n r q t) := by
  rcases ht with rfl | ⟨c, t', rfl, hc⟩
  · exact Or.inl rfl
  · rw [subRun_cons_neg n r q c t'
      (by simp [headMatch_nonword_head n hne hw q c t' hc])]
    exact Or.inr ⟨c, _, rfl, hc⟩

theorem subRun_skip (n r : List Char) :
    ∀ (w t : List Char) (p : Option Char), w ≠ [] →
      (∀ c ∈ w, isWordC c = true) → headMatchB n p (w ++ t) = false →
      subRun n r p (w ++ t) = w ++ subRun n r (some (w.getLastD ' ')) t := by
  intro w
  induction w with
  | nil => intro t p hne _ _; exact absurd rfl hne
  | cons a w' ih =>
    intro t p _ hww hm
    have ha : isWordC a = true := hww a (List.mem_cons_self a w')
    simp only [List.cons_append] at hm ⊢
    rw [subRun_cons_neg n r p a (w' ++ t) (by simp [hm])]
    by_cases hw' : w' = []
    · subst hw'
      rfl
    · have hmm : headMatchB n (some a) (w' ++ t) = false :=
        headMatch_prevFail n (some a) (w' ++ t) (by simp [prevOk, ha])
      rw [ih t (some a) hw' (fun c hc => hww c (List.mem_cons_of_mem a hc)) hmm]
      rw [List.getLastD_cons, getLastD_irrel w' hw' a ' ']

theorem subRun_match (n r : List Char) (hne : n ≠ []) (p : Option Char) (t : List Char)
    (hm : headMatchB n p (n ++ t) = true) :
    subRun n r p (n ++ t) = r ++ subRun n r (some (n.getLastD ' ')) t := by
  cases n with
  | nil => exact absurd rfl hne
  | cons a n' =>
    rw [List.cons_append, subRun_cons_pos (a :: n') r p a (n' ++ t) hm]
    simp only [List.length_cons, Nat.add_sub_cancel, List.getLastD_cons]
    rw [List.drop_left]

theorem repl_pass (Y ry : List Char) (hYne : Y ≠ []) (hYw : ∀ c ∈ Y, isWordC c = true)
    (ox X : List Char) (hXne : X ≠ []) (hXw : ∀ c ∈ X, isWordC c = true)
    (hYX : Y ≠ X)
    (hox : ox = [] ∨ (ox ≠ [] ∧ (∀ c ∈ ox, isWordC c = true) ∧ Y ≠ ox))
    (p : Option Char) (u : List Char) (hu : nwShape u) :
    subRun Y ry p (mkReplL ox X ++ u) =
      mkReplL ox X ++ subRun Y ry (some (X.getLastD ' ')) u := by
  rcases hox with rfl | ⟨hoxne, hoxw, hYox⟩
  · show subRun Y ry p (X ++ u) = X ++ subRun Y ry (some (X.getLastD ' ')) u
    exact subRun_skip Y ry X u p hXne hXw
      (headMatch_run_ne Y hYne hYw p X u hXw hu (fun h => hYX h.2))
  · have hrepl : mkReplL ox X = ox ++ '.' :: X := by
      unfold mkReplL
      rw [if_neg hoxne]
    rw [hrepl]
    have hshape : nwShape ('.' :: (X ++ u)) := Or.inr ⟨'.', X ++ u, rfl, by decide⟩
    have hassoc : (ox ++ '.' :: X) ++ u = ox ++ ('.' :: (X ++ u)) := by
      simp [List.append_assoc]
    rw [hassoc,
      subRun_skip Y ry ox ('.' :: (X ++ u)) p hoxne hoxw
        (headMatch_run_ne Y hYne hYw p ox ('.' :: (X ++ u)) hoxw hshape
          (fun h => hYox h.2)),
      subRun_cons_neg Y ry _ '.' (X ++ u)
        (by simp [headMatch_nonword_head Y hYne hYw _ '.' (X ++ u) (by decide)]),
      subRun_skip Y ry X u (some '.') hXne hXw
        (headMatch_prevFail Y (some '.') (X ++ u) (by decide))]
    simp [List.append_assoc]

theorem subRun_comm_core (X Y ox oy : List Char)
    (hXne : X ≠ []) (hXw : ∀ c ∈ X, isWordC c = true)
    (hYne : Y ≠ []) (hYw : ∀ c ∈ Y, isWordC c = true)
    (hXY : X ≠ Y)
    (hox : ox = [] ∨ (ox ≠ [] ∧ (∀ c ∈ ox, isWordC c = true) ∧ Y ≠ ox))
    (hoy : oy = [] ∨ (oy ≠ [] ∧ (∀ c ∈ oy, isWordC c = true) ∧ X ≠ oy)) :
    ∀ (N : Nat) (l : List Char) (p : Option Char), l.length ≤ N →
      subRun Y (mkReplL oy Y) p (subRun X (mkReplL ox X) p l) =
        subRun X (mkReplL ox X) p (subRun Y (mkReplL oy Y) p l) := by
  intro N
  induction N with
  | zero =>
    intro l p hl
    have : l = [] := List.eq_nil_of_length_eq_zero (Nat.le_zero.1 hl)
    subst this
    rfl
  | succ N ih =>
    intro l p hl
    cases l with
    | nil => rfl
    | cons c rest =>
      by_cases hcw : isWordC c = true
      · -- the head starts a word run
        obtain ⟨w, t, hsplit, hwne, hww, htsh, hlt⟩ :
            ∃ w t, c :: rest = w ++ t ∧ w ≠ [] ∧ (∀ ch ∈ w, isWordC ch = true) ∧
              nwShape t ∧ t.length ≤ N := by
          refine ⟨(c :: rest).takeWhile isWordC, (c :: rest).dropWhile isWordC,
            (List.takeWhile_append_dropWhile isWordC (c :: rest)).symm, ?_, ?_, ?_, ?_⟩
          · rw [List.takeWhile_cons, if_pos hcw]
            simp
          · intro ch hch
            exact List.mem_takeWhile_imp hch
          · exact dropWhile_shape isWordC (c :: rest)
          · rw [List.dropWhile_cons, if_pos hcw]
            have h4 := length_dropWhile_le isWordC rest
            have h3 : rest.length + 1 ≤ N + 1 := hl
            omega
        rw [hsplit]
        by_cases hmX : prevOk p = true ∧ X = w
        · obtain ⟨hp, rfl⟩ := hmX
          have hm : headMatchB X p (X ++ t) = true :=
            (headMatch_run X hXne hXw p X t hww htsh).2 ⟨hp, rfl⟩
          have hu1 : nwShape (subRun X (mkReplL ox X) (some (X.getLastD ' ')) t) :=
            subRun_keeps_shape X (mkReplL ox X) hXne hXw _ t htsh
          have hu2 : nwShape (subRun Y (mkReplL oy Y) (some (X.getLastD ' ')) t) :=
            subRun_keeps_shape Y (mkReplL oy Y) hYne hYw _ t htsh
          rw [subRun_match X (mkReplL ox X) hXne p t hm,
            repl_pass Y (mkReplL oy Y) hYne hYw ox X hXne hXw (Ne.symm hXY) hox p _ hu1,
            subRun_skip Y (mkReplL oy Y) X t p hXne hXw
              (headMatch_run_ne Y hYne hYw p X t hXw htsh (fun h => hXY h.2.symm)),
            getLastD_irrel X hXne ' ' ' ']
          have hm2 : headMatchB X p (X ++ subRun Y (mkReplL oy Y) (some (X.getLastD ' ')) t) = true :=
            (headMatch_run X hXne hXw p X _ hXw hu2).2 ⟨hp, rfl⟩
          rw [subRun_match X (mkReplL ox X) hXne p _ hm2]
          rw [ih t (some (X.getLastD ' ')) hlt]
        · by_cases hmY : prevOk p = true ∧ Y = w
          · obtain ⟨hp, rfl⟩ := hmY
            have hm : headMatchB Y p (Y ++ t) = true :=
              (headMatch_run Y hYne hYw p Y t hww htsh).2 ⟨hp, rfl⟩
            have hu1 : nwShape (subRun Y (mkReplL oy Y) (some (Y.getLastD ' ')) t) :=
              subRun_keeps_shape Y (mkReplL oy Y) hYne hYw _ t htsh
            have hu2 : nwShape (subRun X (mkReplL ox X) (some (Y.getLastD ' ')) t) :=
              subRun_keeps_shape X (mkReplL ox X) hXne hXw _ t htsh
            rw [subRun_match Y (mkReplL oy Y) hYne p t hm,
              repl_pass X (mkReplL ox X) hXne hXw oy Y hYne hYw hXY hoy p _ hu1,
              subRun_skip X (mkReplL ox X) Y t p hYne hYw
                (headMatch_run_ne X hXne hXw p Y t hYw htsh (fun h => hXY h.2)),
              getLastD_irrel Y hYne ' ' ' ']
            have hm2 : headMatchB Y p (Y ++ subRun X (mkReplL ox X) (some (Y.getLastD ' ')) t) = true :=
              (headMatch_run Y hYne hYw p Y _ hYw hu2).2 ⟨hp, rfl⟩
            rw [subRun_match Y (mkReplL oy Y) hYne p _ hm2]
            rw [ih t (some (Y.getLastD ' ')) hlt]
          · have hu1 : nwShape (subRun X (mkReplL ox X) (some (w.getLastD ' ')) t) :=
              subRun_keeps_shape X (mkReplL ox X) hXne hXw _ t htsh
            have hu2 : nwShape (subRun Y (mkReplL oy Y) (some (w.getLastD ' ')) t) :=
              subRun_keeps_shape Y (mkReplL oy Y) hYne hYw _ t htsh
            rw [subRun_skip X (mkReplL ox X) w t p hwne hww
                (headMatch_run_ne X hXne hXw p w t hww htsh hmX),
              subRun_skip Y (mkReplL oy Y) w t p hwne hww
                (headMatch_run_ne Y hYne hYw p w t hww htsh hmY),
              subRun_skip Y (mkReplL oy Y) w _ p hwne hww
                (headMatch_run_ne Y hYne hYw p w _ hww hu1 hmY),
              subRun_skip X (mkReplL ox X) w _ p hwne hww
                (headMatch_run_ne X hXne hXw p w _ hww hu2 hmX)]
            rw [ih t (some (w.getLastD ' ')) hlt]
      · -- non-word head character
        have hc : isWordC c = false := by simpa using hcw
        have hr : rest.length ≤ N := by simpa using Nat.le_of_succ_le_succ hl
        rw [subRun_cons_neg X (mkReplL ox X) p c rest
            (by simp [headMatch_nonword_head X hXne hXw p c rest hc]),
          subRun_cons_neg Y (mkReplL oy Y) p c rest
            (by simp [headMatch_nonword_head Y hYne hYw p c rest hc]),
          subRun_cons_neg Y (mkReplL oy Y) p c _
            (by simp [headMatch_nonword_head Y hYne hYw p c _ hc]),
          subRun_cons_neg X (mkReplL ox X) p c _
            (by simp [headMatch_nonword_head X hXne hXw p c _ hc])]
        rw [ih rest (some c) hr]

/-! ## String-level commutation of the per-name substitutions -/

theorem mkRepl_data (o n : String) : (mkRepl o n).data = mkReplL o.data n.data := by
  unfold mkRepl mkReplL
  by_cases h : o = ""
  · rw [if_pos h, if_pos (by rw [h])]
  · rw [if_neg h, if_neg (fun hd => h (String.ext hd))]
    rw [String.data_append, String.data_append]
    simp [List.append_assoc]

theorem identTok_parts (x : String) (hx : identTok x = true) :
    x.data ≠ [] ∧ ∀ c ∈ x.data, isWordC c = true := by
  unfold identTok at hx
  rcases Bool.and_eq_true_iff.1 hx with ⟨h1, h2⟩
  refine ⟨by simpa using h1, ?_⟩
  intro c hc
  exact List.all_eq_true.1 h2 c hc

theorem subName_comm (x y ox oy : String)
    (hx : identTok x = true) (hy : identTok y = true) (hxy : x ≠ y)
    (hox : ox = "" ∨ (ox ≠ "" ∧ (∀ c ∈ ox.data, isWordC c = true) ∧ y ≠ ox))
    (hoy : oy = "" ∨ (oy ≠ "" ∧ (∀ c ∈ oy.data, isWordC c = true) ∧ x ≠ oy))
    (s : String) :
    subName y (mkRepl oy y) (subName x (mkRepl ox x) s) =
      subName x (mkRepl ox x) (subName y (mkRepl oy y) s) := by
  obtain ⟨hxne, hxw⟩ := identTok_parts x hx
  obtain ⟨hyne, hyw⟩ := identTok_parts y hy
  have hdata_ne : x.data ≠ y.data := fun h => hxy (String.ext h)
  have hox' : ox.data = [] ∨
      (ox.data ≠ [] ∧ (∀ c ∈ ox.data, isWordC c = true) ∧ y.data ≠ ox.data) := by
    rcases hox with rfl | ⟨h1, h2, h3⟩
    · exact Or.inl rfl
    · exact Or.inr ⟨fun hd => h1 (String.ext hd), h2, fun hd => h3 (String.ext hd)⟩
  have hoy' : oy.data = [] ∨
      (oy.data ≠ [] ∧ (∀ c ∈ oy.data, isWordC c = true) ∧ x.data ≠ oy.data) := by
    rcases hoy with rfl | ⟨h1, h2, h3⟩
    · exact Or.inl rfl
    · exact Or.inr ⟨fun hd => h1 (String.ext hd), h2, fun hd => h3 (String.ext hd)⟩
  apply String.ext
  show subRun y.data (mkRepl oy y).data none (subRun x.data (mkRepl ox x).data none s.data) =
    subRun x.data (mkRepl ox x).data none (subRun y.data (mkRepl oy y).data none s.data)
  rw [mkRepl_data, mkRepl_data]
  exact subRun_comm_core x.data y.data ox.data oy.data hxne hxw hyne hyw hdata_ne
    hox' hoy' s.data.length s.data none (Nat.le_refl _)

/-! ## The resolver table and commutation of loop steps -/

theorem resolveStd_origin (n o : String) (h : resolveStd n = some o) :
    o = "" ∨ o ∈ BUILTIN_NAMESPACES := by
  unfold resolveStd at h
  cases hf : resolveTable.find? (fun p => p.1 = n) with
  | none => rw [hf] at h; cases h
  | some p =>
    rw [hf] at h
    simp only [Option.map_some', Option.some.injEq] at h
    have hmem := List.mem_of_find?_eq_some hf
    have hall : ∀ q ∈ resolveTable, q.2 = "" ∨ q.2 ∈ BUILTIN_NAMESPACES := by decide
    rw [← h]
    exact hall p hmem

theorem resolveStd_ns_none : ∀ n ∈ BUILTIN_NAMESPACES, resolveStd n = none := by decide

theorem resolveStd_not_ns (n o : String) (h : resolveStd n = some o) :
    n ∉ BUILTIN_NAMESPACES := by
  intro hmem
  rw [resolveStd_ns_none n hmem] at h
  cases h

theorem ns_facts : ∀ o ∈ BUILTIN_NAMESPACES,
    o ≠ "" ∧ (∀ c ∈ o.data, isWordC c = true) := by decide

theorem applyStep_comm (R : String → Option String)
    (hR1 : ∀ n o, R n = some o → o = "" ∨ o ∈ BUILTIN_NAMESPACES)
    (hR2 : ∀ n o, R n = some o → n ∉ BUILTIN_NAMESPACES)
    (x y : String) (hx : identTok x = true) (hy : identTok y = true) (s : String) :
    applyStep R (applyStep R s x) y = applyStep R (applyStep R s y) x := by
  by_cases hxy : x = y
  · subst hxy; rfl
  cases hcx : R x with
  | none =>
    have hxid : ∀ s', applyStep R s' x = s' := by
      intro s'
      unfold applyStep
      by_cases hg : x.data.contains '.' ∧ x ∈ BUILTIN_NAMESPACES
      · rw [if_pos hg]
      · rw [if_neg hg, hcx]
    rw [hxid, hxid]
  | some ox =>
    cases hcy : R y with
    | none =>
      have hyid : ∀ s', applyStep R s' y = s' := by
        intro s'
        unfold applyStep
        by_cases hg : y.data.contains '.' ∧ y ∈ BUILTIN_NAMESPACES
        · rw [if_pos hg]
        · rw [if_neg hg, hcy]
      rw [hyid, hyid]
    | some oy =>
      have hgx : ¬(x.data.contains '.' ∧ x ∈ BUILTIN_NAMESPACES) :=
        fun hg => hR2 x ox hcx hg.2
      have hgy : ¬(y.data.contains '.' ∧ y ∈ BUILTIN_NAMESPACES) :=
        fun hg => hR2 y oy hcy hg.2
      have hstepx : ∀ s', applyStep R s' x = subName x (mkRepl ox x) s' := by
        intro s'
        unfold applyStep
        rw [if_neg hgx, hcx]
      have hstepy : ∀ s', applyStep R s' y = subName y (mkRepl oy y) s' := by
        intro s'
        unfold applyStep
        rw [if_neg hgy, hcy]
      rw [hstepx, hstepy, hstepx, hstepy]
      have hox : ox = "" ∨ (ox ≠ "" ∧ (∀ c ∈ ox.data, isWordC c = true) ∧ y ≠ ox) := by
        rcases hR1 x ox hcx with h | h
        · exact Or.inl h
        · obtain ⟨h1, h2⟩ := ns_facts ox h
          exact Or.inr ⟨h1, h2, fun heq => hR2 y oy hcy (heq ▸ h)⟩
      have hoy : oy = "" ∨ (oy ≠ "" ∧ (∀ c ∈ oy.data, isWordC c = true) ∧ x ≠ oy) := by
        rcases hR1 y oy hcy with h | h
        · exact Or.inl h
        · obtain ⟨h1, h2⟩ := ns_facts oy h
          exact Or.inr ⟨h1, h2, fun heq => hR2 x ox hcx (heq ▸ h)⟩
      exact subName_comm x y ox oy hx hy hxy hox hoy s

/-! ## The rewriting stage as a fold of per-name substitutions -/

theorem stepName_validated (R : String → Option String) (st : RewriteState) (n : String) :
    (stepName R st n).validated = applyStep R st.validated n := by
  unfold stepName applyStep
  by_cases hg : n.data.contains '.' ∧ n ∈ BUILTIN_NAMESPACES
  · rw [if_pos hg, if_pos hg]
  · rw [if_neg hg, if_neg hg]
    cases R n <;> rfl

theorem foldl_validated (R : String → Option String) :
    ∀ (ns : List String) (st : RewriteState),
      (ns.foldl (stepName R) st).validated = ns.foldl (applyStep R) st.validated := by
  intro ns
  induction ns with
  | nil => intro st; rfl
  | cons m ns ih =>
    intro st
    rw [List.foldl_cons, List.foldl_cons, ih, stepName_validated]

theorem rewriteStage_validated (R : String → Option String) (s : String) :
    (rewriteStage R s).validated = (seperate_names s).foldl (applyStep R) s :=
  foldl_validated R (seperate_names s) ⟨s, [], []⟩

/-! ## Candidate names are identifier tokens -/

theorem scanCore_tok : ∀ (f : Nat) (p : Option Char) (l : List Char) (x : String),
    x ∈ scanCore f p l → x = "" ∨ identTok x = true := by
  intro f
  induction f with
  | zero =>
    intro p l x hx
    cases l with
    | nil => exact absurd hx (List.not_mem_nil x)
    | cons c rest => exact absurd hx (List.not_mem_nil x)
  | succ f ih =>
    intro p l x hx
    cases l with
    | nil => exact absurd hx (List.not_mem_nil x)
    | cons c rest =>
      unfold scanCore at hx
      cases htl : tryLit (c :: rest) with
      | some qr =>
        obtain ⟨q, rem⟩ := qr
        rw [htl] at hx
        rcases List.mem_cons.1 hx with rfl | hx'
        · exact Or.inl rfl
        · exact ih _ _ _ hx'
      | none =>
        rw [htl] at hx
        by_cases hpc : prevOk p = true ∧ isIdentStart c = true
        · rw [if_pos hpc] at hx
          by_cases hdot : ((c :: rest).dropWhile isWordC).head? = some '.'
          · rw [if_pos hdot] at hx
            exact ih _ _ _ hx
          · rw [if_neg hdot] at hx
            rcases List.mem_cons.1 hx with rfl | hx'
            · refine Or.inr ?_
              unfold identTok
              have hcw : isWordC c = true := identStart_word hpc.2
              have hrun : (c :: rest).takeWhile isWordC = c :: rest.takeWhile isWordC := by
                rw [List.takeWhile_cons, if_pos hcw]
              show (!((c :: rest).takeWhile isWordC).isEmpty &&
                ((c :: rest).takeWhile isWordC).all isWordC) = true
              rw [hrun]
              refine Bool.and_eq_true_iff.2 ⟨by simp, ?_⟩
              refine List.all_eq_true.2 ?_
              intro z hz
              rw [← hrun] at hz
              exact List.mem_takeWhile_imp hz
            · exact ih _ _ _ hx'
        · rw [if_neg hpc] at hx
          exact ih _ _ _ hx

theorem find_names_tok (s x : String) (hx : x ∈ find_names s) :
    x = "" ∨ identTok x = true :=
  scanCore_tok _ _ _ _ hx

theorem sepCore_tok : ∀ (f : Nat) (names : List String) (k : Nat) (acc : List String),
    (∀ x ∈ names, x = "" ∨ identTok x = true) →
    (∀ x ∈ acc, x = "" ∨ identTok x = true) →
    ∀ x ∈ sepCore f names k acc, x = "" ∨ identTok x = true := by
  intro f
  induction f with
  | zero =>
    intro names k acc hn ha x hx
    unfold sepCore at hx
    rcases List.mem_append.1 hx with h | h
    · exact ha x h
    · exact hn x h
  | succ f ih =>
    intro names k acc hn ha x hx
    unfold sepCore at hx
    by_cases hk : k < names.length
    · rw [dif_pos hk] at hx
      by_cases hlen : (find_names (names.get ⟨k, hk⟩)).length > 1
      · rw [if_pos hlen] at hx
        refine ih _ _ _ ?_ ?_ x hx
        · intro z hz
          exact hn z (List.Sublist.subset (List.eraseIdx_sublist names k) hz)
        · intro z hz
          rcases List.mem_append.1 hz with h | h
          · exact ha z h
          · exact find_names_tok _ z h
      · rw [if_neg hlen] at hx
        exact ih _ _ _ hn ha x hx
    · rw [dif_neg hk] at hx
      rcases List.mem_append.1 hx with h | h
      · exact ha x h
      · exact hn x h

theorem dedupAcc_sub {α : Type} [DecidableEq α] :
    ∀ (seen l : List α) (x : α), x ∈ dedupAcc seen l → x ∈ l := by
  intro seen l
  induction l generalizing seen with
  | nil => intro x hx; exact absurd hx (List.not_mem_nil x)
  | cons a l' ih =>
    intro x hx
    unfold dedupAcc at hx
    by_cases ha : a ∈ seen
    · rw [if_pos ha] at hx
      exact List.mem_cons_of_mem a (ih seen x hx)
    · rw [if_neg ha] at hx
      rcases List.mem_cons.1 hx with rfl | h
      · exact List.mem_cons_self x l'
      · exact List.mem_cons_of_mem a (ih _ x h)

theorem seperate_names_tok (s : String) : ∀ x ∈ seperate_names s, identTok x = true := by
  intro x hx
  unfold seperate_names only at hx
  have h1 := dedupAcc_sub _ _ x hx
  have h2 := List.mem_filter.1 h1
  have h3 := sepCore_tok _ _ _ _ (fun z hz => find_names_tok s z hz)
    (fun z hz => absurd hz (List.not_mem_nil z)) x h2.1
  rcases h3 with rfl | h3
  · exact absurd h2.2 (by decide)
  · exact h3

/-- C7: the final rewritten annotation string is independent of the order in
which the distinct candidate names are processed: folding the per-name
substitutions over any permutation of the candidate-name set yields the
`validated_type` the validator produces. -/
theorem c7_order_independent (s : String) (l : List String)
    (hp : List.Perm l (seperate_names s)) :
    List.foldl (applyStep resolveStd) s l =
      (validateNames resolveStd s).validated_type := by
  rw [validateNames_validated, rewriteStage_validated]
  apply hp.foldl_eq'
  intro x hx y hy z
  by_cases hxy : x = y
  · subst hxy; rfl
  · have hx' : x ∈ seperate_names s := hp.mem_iff.1 hx
    have hy' : y ∈ seperate_names s := hp.mem_iff.1 hy
    exact applyStep_comm resolveStd resolveStd_origin resolveStd_not_ns x y
      (seperate_names_tok s x hx') (seperate_names_tok s y hy') z

/-- Witness for C7: processing the candidate names of `Union[int, str]` in
reverse order produces the same rewritten string. -/
theorem c7_witness :
    List.foldl (applyStep resolveStd) "Union[int, str]"
        (List.reverse (seperate_names "Union[int, str]")) =
      (validateNames resolveStd "Union[int, str]").validated_type :=
  c7_order_independent "Union[int, str]" (List.reverse (seperate_names "Union[int, str]"))
    (List.reverse_perm (seperate_names "Union[int, str]"))

end Typer
